import Mathlib

/-!
Shallow embedding of the video-repair scripts (video_repair.py, 1.py, 3.py,
4.py).  Paths are modelled as lists of characters; the POSIX path helpers
(`os.path.dirname`, `os.path.basename`, `os.path.splitext`, `os.path.join`)
are translated from CPython's `posixpath` module.  Each script's
orchestration function is embedded as a pure function from the relevant
environment facts (input-file existence, spawn result, output-file state at
child termination) to the outcome the script reports.
-/

namespace VideoRepair

/-- Separator test used by the POSIX path helpers. -/
def isSlash (c : Char) : Bool := c = '/'

/-- Extension-separator test used by `splitext`. -/
def isDot (c : Char) : Bool := c = '.'

/-- `posixpath.basename`: the part of the path after the last slash. -/
def basenameL (p : List Char) : List Char :=
  (p.reverse.takeWhile (fun c => !isSlash c)).reverse

/-- The head part `p[:i]` of `posixpath.split` (up to and including the last
slash), before trailing slashes are stripped. -/
def splitHeadL (p : List Char) : List Char :=
  (p.reverse.dropWhile (fun c => !isSlash c)).reverse

/-- `str.rstrip('/')`: remove trailing slashes. -/
def rstripSlash (l : List Char) : List Char :=
  (l.reverse.dropWhile isSlash).reverse

/-- `posixpath.dirname`: head of the split, with trailing slashes stripped
unless the head is empty or consists only of slashes. -/
def dirnameL (p : List Char) : List Char :=
  if splitHeadL p = [] ∨ (splitHeadL p).all isSlash then splitHeadL p
  else rstripSlash (splitHeadL p)

/-- `posixpath.splitext` restricted to names (as the scripts apply it to
`os.path.basename(...)`): split at the last dot, unless every character
before that dot is itself a dot. -/
def splitextL (b : List Char) : List Char × List Char :=
  if b.reverse.dropWhile (fun c => !isDot c) = [] then (b, [])
  else if ((b.reverse.dropWhile (fun c => !isDot c)).tail).reverse.any
      (fun c => !isDot c) then
    (((b.reverse.dropWhile (fun c => !isDot c)).tail).reverse,
      '.' :: (b.reverse.takeWhile (fun c => !isDot c)).reverse)
  else (b, [])

/-- `posixpath.join` for two components. -/
def joinL (a b : List Char) : List Char :=
  if b.head? = some '/' then b
  else if a = [] ∨ a.getLast? = some '/' then a ++ b
  else a ++ '/' :: b

/-- Extension component of a path: `splitext` applied after `basename`
(`posixpath.splitext` only ever splits inside the final component). -/
def pathExtL (p : List Char) : List Char :=
  (splitextL (basenameL p)).2

/-- Output path derivation of `video_repair.py` and `1.py`:
`join(dirname(p), stem + "_noncorrupt" + ext)`. -/
def output_path_noncorrupt (p : List Char) : List Char :=
  joinL (dirnameL p)
    ((splitextL (basenameL p)).1 ++ "_noncorrupt".data ++
      (splitextL (basenameL p)).2)

/-- Output path derivation of `4.py`:
`join(dirname(p), stem + ".fixed" + ext)`. -/
def output_path_fixed (p : List Char) : List Char :=
  joinL (dirnameL p)
    ((splitextL (basenameL p)).1 ++ ".fixed".data ++
      (splitextL (basenameL p)).2)

/-- Output path derivation of `3.py`: the extension is forced to `.mp4`,
`join(dirname(p), stem + "_noncorrupt.mp4")`. -/
def output_path_forced (p : List Char) : List Char :=
  joinL (dirnameL p)
    ((splitextL (basenameL p)).1 ++ "_noncorrupt.mp4".data)

/-- String wrapper for the `video_repair.py`/`1.py` output path. -/
def outputPathNoncorrupt (p : String) : String :=
  ⟨output_path_noncorrupt p.data⟩

/-- String wrapper for the `4.py` output path. -/
def outputPathFixed (p : String) : String :=
  ⟨output_path_fixed p.data⟩

/-- String wrapper for the `3.py` output path. -/
def outputPathForced (p : String) : String :=
  ⟨output_path_forced p.data⟩

/-- Argument list built in `video_repair.py` (remux / stream copy). -/
def command_repair_video (p : String) : List String :=
  ["ffmpeg", "-i", p, "-c", "copy", "-movflags", "faststart", "-y",
   outputPathNoncorrupt p]

/-- Argument list built in `1.py` (full re-encode). -/
def command_repair_video_reencode (p : String) : List String :=
  ["ffmpeg", "-i", p, "-c:v", "libx264", "-preset", "medium", "-crf", "23",
   "-c:a", "aac", "-b:a", "128k", "-movflags", "faststart", "-y",
   outputPathNoncorrupt p]

/-- Argument list built in `3.py` (forced-format re-encode). -/
def command_repair_video_forced (p : String) : List String :=
  ["ffmpeg", "-f", "h264", "-err_detect", "aggressive", "-i", p,
   "-c:v", "libx264", "-preset", "medium", "-crf", "23",
   "-c:a", "aac", "-b:a", "128k", "-movflags", "faststart", "-y",
   outputPathForced p]

/-- Argument list built in `4.py` (stream copy, `repair_video_ffmpeg`). -/
def command_repair_video_ffmpeg (p : String) : List String :=
  ["ffmpeg", "-i", p, "-c", "copy", outputPathFixed p]

/-- Outcomes the scripts report through their printed banners. -/
inductive Outcome
  | inputNotFound
  | identicalPaths
  | toolNotFound
  | succeeded
  | failed
  deriving DecidableEq, Repr

/-- Result of the attempt to spawn the external tool: either the binary
cannot be resolved (`FileNotFoundError`), or the child ran to completion
with a return code, together with the existence and size of the output file
at termination. -/
inductive SpawnResult
  | notFound
  | exited (returncode : Int) (outExists : Bool) (outSize : Nat)

/-- Orchestration of `repair_video` in `video_repair.py` (identical
classification in `1.py` and `3.py`): abort with `inputNotFound` before
spawning when the input is missing; `toolNotFound` on `FileNotFoundError`;
otherwise the outcome depends only on the return code — the output file is
never inspected.  The boolean records whether `Popen` was reached. -/
def repair_video_run (inputExists : Bool) (sr : SpawnResult) :
    Outcome × Bool :=
  if inputExists = false then (Outcome.inputNotFound, false)
  else
    match sr with
    | SpawnResult.notFound => (Outcome.toolNotFound, true)
    | SpawnResult.exited rc _ _ =>
        (if rc = 0 then Outcome.succeeded else Outcome.failed, true)

/-- Orchestration of `repair_video_ffmpeg` in `4.py`: input-existence check,
then the identical-paths guard, then the spawn; success requires return code
zero AND an existing, non-empty output file. -/
def repair_video_ffmpeg_run (p : List Char) (inputExists : Bool)
    (sr : SpawnResult) : Outcome × Bool :=
  if inputExists = false then (Outcome.inputNotFound, false)
  else if p = output_path_fixed p then (Outcome.identicalPaths, false)
  else
    match sr with
    | SpawnResult.notFound => (Outcome.toolNotFound, true)
    | SpawnResult.exited rc ex sz =>
        (if rc = 0 ∧ ex = true ∧ 0 < sz then Outcome.succeeded
         else Outcome.failed, true)

/-- ASCII whitespace stripped by Python's `str.strip()`. -/
def pyIsSpace (c : Char) : Bool :=
  c = ' ' ∨ c = '\t' ∨ c = '\n' ∨ c = '\r' ∨
  c = Char.ofNat 11 ∨ c = Char.ofNat 12

/-- `str.strip()`: remove whitespace from both ends. -/
def pyStrip (s : List Char) : List Char :=
  ((s.dropWhile pyIsSpace).reverse.dropWhile pyIsSpace).reverse

/-- The single-quote character. -/
def squote : Char := Char.ofNat 39

/-- Quote characters removed by the scripts' path cleanup. -/
def isQuote (c : Char) : Bool := c = '"' ∨ c = squote

/-- Path cleanup performed by every script's `main`:
`s.strip().replace(chr(34), "").replace(chr(39), "")` — strip surrounding
whitespace, then delete EVERY double- and single-quote character. -/
def sanitize (s : List Char) : List Char :=
  (pyStrip s).filter (fun c => !isQuote c)

/-- Modelled from the spec: the cleanup the claim describes — surrounding
whitespace stripped, then only SURROUNDING quote characters removed.  Used
solely to compare the claimed behaviour with `sanitize`. -/
def stripSurroundingQuotes (s : List Char) : List Char :=
  (((pyStrip s).dropWhile isQuote).reverse.dropWhile isQuote).reverse

example : output_path_noncorrupt "/videos/clip.mp4".data =
    "/videos/clip_noncorrupt.mp4".data := by decide
example : output_path_fixed "/videos/clip.mp4".data =
    "/videos/clip.fixed.mp4".data := by decide
example : output_path_forced "/videos/clip.mov".data =
    "/videos/clip_noncorrupt.mp4".data := by decide
example : output_path_noncorrupt "clip".data = "clip_noncorrupt".data := by
  decide
example : output_path_noncorrupt "/a/.bashrc".data =
    "/a/.bashrc_noncorrupt".data := by decide
example : output_path_noncorrupt "/x.mp4".data = "/x_noncorrupt.mp4".data := by
  decide
example : sanitize "  \"/videos/clip.mp4\"  ".data =
    "/videos/clip.mp4".data := by decide

/-! Helper lemmas about `takeWhile`, `dropWhile` and the path functions. -/

theorem takeWhile_append_all {α : Type} {p : α → Bool} {l₁ l₂ : List α}
    (h : ∀ a ∈ l₁, p a = true) :
    (l₁ ++ l₂).takeWhile p = l₁ ++ l₂.takeWhile p := by
  induction l₁ with
  | nil => simp
  | cons a t ih =>
      rw [List.cons_append, List.takeWhile_cons_of_pos (h a (by simp)),
        ih (fun b hb => h b (by simp [hb])), List.cons_append]

theorem dropWhile_append_all {α : Type} {p : α → Bool} {l₁ l₂ : List α}
    (h : ∀ a ∈ l₁, p a = true) :
    (l₁ ++ l₂).dropWhile p = l₂.dropWhile p := by
  induction l₁ with
  | nil => simp
  | cons a t ih =>
      rw [List.cons_append, List.dropWhile_cons_of_pos (h a (by simp))]
      exact ih (fun b hb => h b (by simp [hb]))

theorem dropWhile_head_neg {α : Type} {p : α → Bool} {a : α} :
    ∀ {l t : List α}, l.dropWhile p = a :: t → p a = false := by
  intro l
  induction l with
  | nil => intro t h; simp at h
  | cons x xs ih =>
      intro t h
      rw [List.dropWhile_cons] at h
      by_cases hx : p x = true
      · rw [if_pos hx] at h; exact ih h
      · rw [if_neg hx] at h
        injection h with h1 _
        subst h1
        simpa using hx

theorem takeWhile_nil_of_head_neg {α : Type} {p : α → Bool} {l : List α}
    {a : α} (hh : l.head? = some a) (ha : p a = false) :
    l.takeWhile p = [] := by
  cases l with
  | nil => simp at hh
  | cons x xs =>
      rw [List.head?_cons] at hh
      injection hh with hh
      subst hh
      exact List.takeWhile_cons_of_neg (by simp [ha])

theorem dropWhile_self_of_head_neg {α : Type} {p : α → Bool} {l : List α}
    {a : α} (hh : l.head? = some a) (ha : p a = false) :
    l.dropWhile p = l := by
  cases l with
  | nil => simp
  | cons x xs =>
      rw [List.head?_cons] at hh
      injection hh with hh
      subst hh
      exact List.dropWhile_cons_of_neg (by simp [ha])

theorem basename_no_slash {p : List Char} {c : Char}
    (hc : c ∈ basenameL p) : isSlash c = false := by
  unfold basenameL at hc
  rw [List.mem_reverse] at hc
  have := List.mem_takeWhile_imp hc
  simpa using this

theorem join_eq_of_no_slash {d x : List Char}
    (hx : ∀ c ∈ x, isSlash c = false) (hne : x ≠ []) :
    joinL d x =
      if d = [] ∨ d.getLast? = some '/' then d ++ x else d ++ '/' :: x := by
  unfold joinL
  have hxh : ¬ x.head? = some '/' := by
    cases x with
    | nil => simp
    | cons a t =>
        rw [List.head?_cons]
        intro h
        injection h with h
        subst h
        have := hx '/' (by simp)
        simp [isSlash] at this
  rw [if_neg hxh]

theorem basename_join {d x : List Char}
    (hx : ∀ c ∈ x, isSlash c = false) (hne : x ≠ []) :
    basenameL (joinL d x) = x := by
  have hxrev : ∀ c ∈ x.reverse, (fun c => !isSlash c) c = true := by
    intro c hc
    simp [hx c (List.mem_reverse.mp hc)]
  rw [join_eq_of_no_slash hx hne]
  by_cases hd : d = [] ∨ d.getLast? = some '/'
  · rw [if_pos hd]
    unfold basenameL
    rw [List.reverse_append, takeWhile_append_all hxrev]
    have hdrop : d.reverse.takeWhile (fun c => !isSlash c) = [] := by
      rcases hd with hd | hd
      · simp [hd]
      · have hh : d.reverse.head? = some '/' := by simp [hd]
        exact takeWhile_nil_of_head_neg hh (by simp [isSlash])
    rw [hdrop, List.append_nil, List.reverse_reverse]
  · rw [if_neg hd]
    unfold basenameL
    rw [List.reverse_append, List.reverse_cons, List.append_assoc,
      List.singleton_append, takeWhile_append_all hxrev,
      List.takeWhile_cons_of_neg (by simp [isSlash]), List.append_nil,
      List.reverse_reverse]

theorem splitext_append (b : List Char) :
    (splitextL b).1 ++ (splitextL b).2 = b := by
  unfold splitextL
  by_cases h1 : b.reverse.dropWhile (fun c => !isDot c) = []
  · rw [if_pos h1]
    simp
  · rw [if_neg h1]
    by_cases h2 : ((b.reverse.dropWhile (fun c => !isDot c)).tail).reverse.any
        (fun c => !isDot c) = true
    · rw [if_pos h2]
      cases heq : b.reverse.dropWhile (fun c => !isDot c) with
      | nil => exact absurd heq h1
      | cons a rest =>
          have ha : a = '.' := by
            have h := dropWhile_head_neg heq
            simpa [isDot] using h
          have hsplit :=
            List.takeWhile_append_dropWhile (fun c => !isDot c) b.reverse
          rw [heq, ha] at hsplit
          simp only [List.tail_cons]
          have hb : b = (b.reverse.takeWhile (fun c => !isDot c) ++
              '.' :: rest).reverse := by
            rw [hsplit, List.reverse_reverse]
          conv_rhs => rw [hb]
          simp [List.reverse_append, List.reverse_cons, List.append_assoc]
    · rw [if_neg h2]
      simp

theorem splitext_ext_dot (b : List Char) :
    (splitextL b).2 = [] ∨ ∃ t, (splitextL b).2 = '.' :: t := by
  unfold splitextL
  by_cases h1 : b.reverse.dropWhile (fun c => !isDot c) = []
  · rw [if_pos h1]
    left
    rfl
  · rw [if_neg h1]
    by_cases h2 : ((b.reverse.dropWhile (fun c => !isDot c)).tail).reverse.any
        (fun c => !isDot c) = true
    · rw [if_pos h2]
      right
      exact ⟨_, rfl⟩
    · rw [if_neg h2]
      left
      rfl

theorem dirname_shape (p : List Char) :
    dirnameL p = [] ∨
    ((dirnameL p).all isSlash = true ∧ dirnameL p ≠ []) ∨
    (∃ a t, (dirnameL p).reverse = a :: t ∧ isSlash a = false) := by
  unfold dirnameL
  by_cases hcond : splitHeadL p = [] ∨ (splitHeadL p).all isSlash = true
  · rw [if_pos hcond]
    by_cases hnil : splitHeadL p = []
    · left; exact hnil
    · rcases hcond with hc | hc
      · exact absurd hc hnil
      · right; left; exact ⟨hc, hnil⟩
  · rw [if_neg hcond]
    push_neg at hcond
    obtain ⟨hne, hnall⟩ := hcond
    right; right
    have hex : ∃ c ∈ splitHeadL p, isSlash c = false := by
      by_contra hc
      push_neg at hc
      apply hnall
      rw [List.all_eq_true]
      intro c hcm
      have := hc c hcm
      simpa using this
    obtain ⟨c, hcm, hcs⟩ := hex
    have hdw : (splitHeadL p).reverse.dropWhile isSlash ≠ [] := by
      intro hnil
      rw [List.dropWhile_eq_nil_iff] at hnil
      have := hnil c (List.mem_reverse.mpr hcm)
      simp [hcs] at this
    cases heq : (splitHeadL p).reverse.dropWhile isSlash with
    | nil => exact absurd heq hdw
    | cons a t =>
        refine ⟨a, t, ?_, dropWhile_head_neg heq⟩
        unfold rstripSlash
        rw [List.reverse_reverse, heq]

theorem dropWhile_eq_nil_of_all {α : Type} {p : α → Bool} {l : List α}
    (h : ∀ a ∈ l, p a = true) : l.dropWhile p = [] := by
  rw [List.dropWhile_eq_nil_iff]
  intro x hx
  simp [h x hx]

theorem dropWhile_eq_self_of_all_neg {α : Type} {p : α → Bool} {l : List α}
    (h : ∀ a ∈ l, p a = false) : l.dropWhile p = l := by
  cases l with
  | nil => simp
  | cons a t => exact List.dropWhile_cons_of_neg (by simp [h a (by simp)])

theorem dirnameL_spec (q : List Char) :
    dirnameL q =
      if splitHeadL q = [] ∨ (splitHeadL q).all isSlash then splitHeadL q
      else rstripSlash (splitHeadL q) := rfl

theorem dirnameL_of_no_slash {x : List Char}
    (hx : ∀ c ∈ x, isSlash c = false) : dirnameL x = [] := by
  have hall : ∀ a ∈ x.reverse, (fun c => !isSlash c) a = true := by
    intro a ha
    simp [hx a (List.mem_reverse.mp ha)]
  have hsh : splitHeadL x = [] := by
    unfold splitHeadL
    rw [dropWhile_eq_nil_of_all hall, List.reverse_nil]
  rw [dirnameL_spec, hsh, if_pos (Or.inl rfl)]

theorem dirname_join (p x : List Char)
    (hx : ∀ c ∈ x, isSlash c = false) (hne : x ≠ []) :
    dirnameL (joinL (dirnameL p) x) = dirnameL p := by
  have hxrev : ∀ c ∈ x.reverse, (fun c => !isSlash c) c = true := by
    intro c hc
    simp [hx c (List.mem_reverse.mp hc)]
  rw [join_eq_of_no_slash hx hne]
  rcases dirname_shape p with hd | ⟨hall, hdne⟩ | ⟨a, t, hrev, ha⟩
  · rw [hd, if_pos (Or.inl rfl), List.nil_append,
      dirnameL_of_no_slash hx]
  · have hlast : (dirnameL p).getLast? = some '/' := by
      cases hr : (dirnameL p).reverse with
      | nil =>
          exact absurd (by simpa using congrArg List.reverse hr) hdne
      | cons b t' =>
          have hbmem : b ∈ dirnameL p := by
            rw [← List.mem_reverse, hr]
            simp
          have hb : b = '/' := by
            rw [List.all_eq_true] at hall
            simpa [isSlash] using hall b hbmem
          rw [← List.head?_reverse, hr, List.head?_cons, hb]
    rw [if_pos (Or.inr hlast)]
    have hdall :
        ∀ c ∈ (dirnameL p).reverse, (fun c => !isSlash c) c = false := by
      intro c hc
      rw [List.all_eq_true] at hall
      simp [hall c (List.mem_reverse.mp hc)]
    have hsh : splitHeadL (dirnameL p ++ x) = dirnameL p := by
      unfold splitHeadL
      rw [List.reverse_append, dropWhile_append_all hxrev,
        dropWhile_eq_self_of_all_neg hdall, List.reverse_reverse]
    rw [dirnameL_spec (dirnameL p ++ x), hsh, if_pos (Or.inr hall)]
  · have hamem : a ∈ dirnameL p := by
      rw [← List.mem_reverse, hrev]
      simp
    have hane : ¬ a = '/' := by
      simpa [isSlash] using ha
    have hdne : dirnameL p ≠ [] := by
      intro h
      rw [h] at hrev
      simp at hrev
    have hlast : (dirnameL p).getLast? = some a := by
      rw [← List.head?_reverse, hrev, List.head?_cons]
    have hcond : ¬ (dirnameL p = [] ∨ (dirnameL p).getLast? = some '/') := by
      rintro (h | h)
      · exact hdne h
      · rw [hlast] at h
        injection h with h
        exact hane h
    rw [if_neg hcond]
    have hsh : splitHeadL (dirnameL p ++ '/' :: x) = dirnameL p ++ ['/'] := by
      unfold splitHeadL
      rw [List.reverse_append, List.reverse_cons, List.append_assoc,
        List.singleton_append, dropWhile_append_all hxrev,
        List.dropWhile_cons_of_neg (by simp [isSlash]), List.reverse_cons,
        List.reverse_reverse]
    have hnall : ¬ ((dirnameL p ++ ['/']).all isSlash = true) := by
      rw [List.all_eq_true]
      intro h
      have := h a (by simp [hamem])
      exact hane (by simpa [isSlash] using this)
    rw [dirnameL_spec (dirnameL p ++ '/' :: x), hsh]
    rw [if_neg (by simp [hnall])]
    unfold rstripSlash
    rw [List.reverse_append, List.reverse_singleton, List.singleton_append,
      List.dropWhile_cons_of_pos (by simp [isSlash]), hrev,
      List.dropWhile_cons_of_neg (by simp [ha]), ← hrev,
      List.reverse_reverse]

theorem stem_ext_no_slash {p : List Char} {c : Char}
    (hc : c ∈ (splitextL (basenameL p)).1 ∨
      c ∈ (splitextL (basenameL p)).2) :
    isSlash c = false := by
  apply basename_no_slash (p := p)
  rw [← splitext_append (basenameL p)]
  rcases hc with h | h
  · exact List.mem_append.mpr (Or.inl h)
  · exact List.mem_append.mpr (Or.inr h)

theorem insert_name_no_slash {p sfx : List Char}
    (hsfx : ∀ c ∈ sfx, isSlash c = false) :
    ∀ c ∈ (splitextL (basenameL p)).1 ++ sfx ++
      (splitextL (basenameL p)).2, isSlash c = false := by
  intro c hc
  rcases List.mem_append.mp hc with hc | hc
  · rcases List.mem_append.mp hc with hc | hc
    · exact stem_ext_no_slash (Or.inl hc)
    · exact hsfx c hc
  · exact stem_ext_no_slash (Or.inr hc)

theorem insert_name_ne_nil {p sfx : List Char} (hsne : sfx ≠ []) :
    (splitextL (basenameL p)).1 ++ sfx ++
      (splitextL (basenameL p)).2 ≠ [] := by
  intro h
  rcases List.append_eq_nil.mp h with ⟨h1, _⟩
  rcases List.append_eq_nil.mp h1 with ⟨_, h2⟩
  exact hsne h2

theorem output_insert_ne (p sfx : List Char)
    (hsfx : ∀ c ∈ sfx, isSlash c = false) (hsne : sfx ≠ []) :
    joinL (dirnameL p)
      ((splitextL (basenameL p)).1 ++ sfx ++
        (splitextL (basenameL p)).2) ≠ p := by
  intro h
  have hb := congrArg basenameL h
  rw [basename_join (insert_name_no_slash hsfx) (insert_name_ne_nil hsne)]
    at hb
  have h1 := congrArg List.length hb
  have h2 := congrArg List.length (splitext_append (basenameL p))
  simp only [List.length_append] at h1 h2
  have hz : sfx.length = 0 := by omega
  exact hsne (List.length_eq_zero.mp hz)

theorem forced_name_no_slash (p : List Char) :
    ∀ c ∈ (splitextL (basenameL p)).1 ++ "_noncorrupt.mp4".data,
      isSlash c = false := by
  intro c hc
  rcases List.mem_append.mp hc with hc | hc
  · exact stem_ext_no_slash (Or.inl hc)
  · have hall : ∀ c ∈ "_noncorrupt.mp4".data, isSlash c = false := by decide
    exact hall c hc

theorem forced_name_ne_nil (p : List Char) :
    (splitextL (basenameL p)).1 ++ "_noncorrupt.mp4".data ≠ [] := by
  intro h
  rcases List.append_eq_nil.mp h with ⟨_, h2⟩
  exact absurd h2 (by decide)

theorem output_forced_ne (p : List Char) : output_path_forced p ≠ p := by
  intro h
  unfold output_path_forced at h
  have hb := congrArg basenameL h
  rw [basename_join (forced_name_no_slash p) (forced_name_ne_nil p)] at hb
  have hba := splitext_append (basenameL p)
  have hext : "_noncorrupt.mp4".data = (splitextL (basenameL p)).2 :=
    List.append_cancel_left (hb.trans hba.symm)
  rcases splitext_ext_dot (basenameL p) with he | ⟨t, he⟩
  · rw [he] at hext
    exact absurd hext (by decide)
  · rw [he] at hext
    injection hext with h1 _
    exact absurd h1 (by decide)

theorem output_noncorrupt_ne (p : List Char) :
    output_path_noncorrupt p ≠ p := by
  have h := output_insert_ne p "_noncorrupt".data (by decide) (by decide)
  unfold output_path_noncorrupt
  exact h

theorem output_fixed_ne (p : List Char) : output_path_fixed p ≠ p := by
  have h := output_insert_ne p ".fixed".data (by decide) (by decide)
  unfold output_path_fixed
  exact h

theorem splitextL_of_rev (b after rest : List Char)
    (hb : b.reverse = after ++ '.' :: rest)
    (hafter : ∀ c ∈ after, isDot c = false)
    (hany : rest.reverse.any (fun c => !isDot c) = true) :
    splitextL b = (rest.reverse, '.' :: after.reverse) := by
  have hdw : b.reverse.dropWhile (fun c => !isDot c) = '.' :: rest := by
    rw [hb, dropWhile_append_all (by
      intro a hamem
      simp [hafter a hamem]), List.dropWhile_cons_of_neg (by simp [isDot])]
  have htw : b.reverse.takeWhile (fun c => !isDot c) = after := by
    rw [hb, takeWhile_append_all (by
      intro a hamem
      simp [hafter a hamem]), List.takeWhile_cons_of_neg (by simp [isDot]),
      List.append_nil]
  unfold splitextL
  rw [hdw, if_neg (by simp), List.tail_cons, if_pos hany, htw]

theorem splitext_stem_mp4 (stem : List Char) :
    splitextL (stem ++ "_noncorrupt.mp4".data) =
      (stem ++ "_noncorrupt".data, ".mp4".data) := by
  have hb : (stem ++ "_noncorrupt.mp4".data).reverse =
      "4pm".data ++ '.' :: ("tpurrocnon_".data ++ stem.reverse) := by
    rw [List.reverse_append]
    rfl
  have hany : (("tpurrocnon_".data ++ stem.reverse)).reverse.any
      (fun c => !isDot c) = true := by
    rw [List.reverse_append, List.reverse_reverse, List.any_append]
    have h4 : (("tpurrocnon_".data).reverse.any fun c => !isDot c) = true := by
      decide
    rw [h4, Bool.or_true]
  have h := splitextL_of_rev (stem ++ "_noncorrupt.mp4".data) "4pm".data
    ("tpurrocnon_".data ++ stem.reverse) hb (by decide) hany
  rw [h]
  rw [List.reverse_append, List.reverse_reverse]
  rfl

theorem pathext_forced_eq (p : List Char) :
    pathExtL (output_path_forced p) = ".mp4".data := by
  unfold pathExtL output_path_forced
  rw [basename_join (forced_name_no_slash p) (forced_name_ne_nil p),
    splitext_stem_mp4]

/-! Helper lemmas for the path-cleanup behaviour. -/

theorem pyStrip_sublist (s : List Char) : List.Sublist (pyStrip s) s := by
  unfold pyStrip
  have h1 := List.dropWhile_sublist
    (l := (s.dropWhile pyIsSpace).reverse) pyIsSpace
  have h2 := h1.reverse
  rw [List.reverse_reverse] at h2
  exact h2.trans (List.dropWhile_sublist pyIsSpace)

theorem sanitize_sublist (s : List Char) : List.Sublist (sanitize s) s :=
  (List.filter_sublist (pyStrip s)).trans (pyStrip_sublist s)

theorem sanitize_no_quote {s : List Char} {c : Char}
    (hc : c ∈ sanitize s) : isQuote c = false := by
  unfold sanitize at hc
  have := (List.mem_filter.mp hc).2
  simpa using this

theorem filter_not_dropWhile {α : Type} (q : α → Bool) (l : List α) :
    l.filter (fun a => !q a) = (l.dropWhile q).filter (fun a => !q a) := by
  conv_lhs => rw [← List.takeWhile_append_dropWhile (p := q) (l := l)]
  rw [List.filter_append]
  have h : (l.takeWhile q).filter (fun a => !q a) = [] := by
    rw [List.filter_eq_nil_iff]
    intro a ha
    simp [List.mem_takeWhile_imp ha]
  rw [h, List.nil_append]

theorem sanitize_eq_strip_of_no_inner (s : List Char)
    (h : ∀ c ∈ stripSurroundingQuotes s, isQuote c = false) :
    sanitize s = stripSurroundingQuotes s := by
  unfold sanitize
  rw [filter_not_dropWhile isQuote (pyStrip s)]
  have hr : ((((pyStrip s).dropWhile isQuote).reverse.filter
      (fun a => !isQuote a))).reverse =
      ((pyStrip s).dropWhile isQuote).filter (fun a => !isQuote a) := by
    rw [List.filter_reverse, List.reverse_reverse]
  rw [← hr, filter_not_dropWhile isQuote ((pyStrip s).dropWhile isQuote).reverse]
  have hself : (((pyStrip s).dropWhile isQuote).reverse.dropWhile
      isQuote).filter (fun a => !isQuote a) =
      ((pyStrip s).dropWhile isQuote).reverse.dropWhile isQuote := by
    rw [List.filter_eq_self]
    intro a ha
    have hmem : a ∈ stripSurroundingQuotes s := by
      unfold stripSurroundingQuotes
      rw [List.mem_reverse]
      exact ha
    simp [h a hmem]
  rw [hself]
  rfl

/-! Claim theorems. -/

/-- C1, counterexample: in `video_repair.py` (and `1.py`, `3.py`) an exit
code of zero is classified `succeeded` even when the file at `output_path`
is missing and has size zero at termination, so the claimed iff (Succeeded
exactly when exit code is zero AND the output file exists non-empty) fails
on those scripts. -/
theorem c1_exit_zero_no_output_counterexample :
    (repair_video_run true (SpawnResult.exited 0 false 0)).1 =
      Outcome.succeeded ∧ Outcome.succeeded ≠ Outcome.failed := by
  decide

/-- C1, amended: only `4.py` classifies the outcome as the claim states
(Succeeded iff exit code zero AND the output file exists with non-zero
size); `video_repair.py`, `1.py` and `3.py` classify Succeeded iff the exit
code is zero, regardless of the output file's state. -/
theorem c1_outcome_classification_amended (rc : Int) (ex : Bool) (sz : Nat)
    (p : List Char) :
    ((repair_video_ffmpeg_run p true (SpawnResult.exited rc ex sz)).1 =
        Outcome.succeeded ↔ (rc = 0 ∧ ex = true ∧ 0 < sz)) ∧
    ((repair_video_run true (SpawnResult.exited rc ex sz)).1 =
        Outcome.succeeded ↔ rc = 0) := by
  have hne : ¬ p = output_path_fixed p := fun h => output_fixed_ne p h.symm
  constructor
  · by_cases hc : rc = 0 ∧ ex = true ∧ 0 < sz
    · simp [repair_video_ffmpeg_run, hne, hc]
    · simp [repair_video_ffmpeg_run, hne, hc]
  · by_cases hc : rc = 0
    · simp [repair_video_run, hc]
    · simp [repair_video_run, hc]

/-- C2, confirmed: each derived output path (the `_noncorrupt` insertion of
`video_repair.py`/`1.py`, the `.fixed` insertion of `4.py`, and the forced
`_noncorrupt.mp4` name of `3.py`) differs from the input path for every
input, and consequently the identical-paths abort branch of `4.py` is
unreachable. -/
theorem c2_output_never_equals_input (p : List Char) :
    output_path_noncorrupt p ≠ p ∧ output_path_fixed p ≠ p ∧
    output_path_forced p ≠ p ∧
    ∀ (inputExists : Bool) (sr : SpawnResult),
      (repair_video_ffmpeg_run p inputExists sr).1 ≠
        Outcome.identicalPaths := by
  refine ⟨output_noncorrupt_ne p, output_fixed_ne p, output_forced_ne p, ?_⟩
  intro inputExists sr
  have hne : ¬ p = output_path_fixed p := fun h => output_fixed_ne p h.symm
  cases inputExists
  · simp [repair_video_ffmpeg_run]
  · cases sr with
    | notFound => simp [repair_video_ffmpeg_run, hne]
    | exited rc ex sz =>
        by_cases hc : rc = 0 ∧ ex = true ∧ 0 < sz
        · simp [repair_video_ffmpeg_run, hne, hc]
        · simp [repair_video_ffmpeg_run, hne, hc]

/-- C3, confirmed: when the input path does not reference an existing file,
both orchestrators report `inputNotFound` and never reach the spawn (the
boolean component, which records whether the child-process spawn is
executed, is `false`), for every possible spawn environment. -/
theorem c3_missing_input_no_spawn (p : List Char) (sr : SpawnResult) :
    repair_video_run false sr = (Outcome.inputNotFound, false) ∧
    repair_video_ffmpeg_run p false sr = (Outcome.inputNotFound, false) := by
  constructor
  · simp [repair_video_run]
  · simp [repair_video_ffmpeg_run]

/-- C4, confirmed: when the external binary cannot be resolved
(`FileNotFoundError` from the spawn), both orchestrators report
`toolNotFound`, an outcome distinct from the `failed` outcome of a resolved
tool exiting non-zero. -/
theorem c4_tool_not_found_distinct (p : List Char) :
    (repair_video_run true SpawnResult.notFound).1 = Outcome.toolNotFound ∧
    (repair_video_ffmpeg_run p true SpawnResult.notFound).1 =
      Outcome.toolNotFound ∧
    Outcome.toolNotFound ≠ Outcome.failed := by
  have hne : ¬ p = output_path_fixed p := fun h => output_fixed_ne p h.symm
  refine ⟨by simp [repair_video_run], ?_, by decide⟩
  simp [repair_video_ffmpeg_run, hne]

/-- C5, counterexample: the stream-copy argument list of `4.py` contains no
`-y` overwrite flag, so the claim that every strategy's argument list
includes an overwrite-without-prompt flag fails on `4.py`. -/
theorem c5_no_overwrite_flag_counterexample :
    ¬ ("-y" ∈ command_repair_video_ffmpeg "/videos/clip.mp4") := by
  decide

/-- C5, amended: the argument lists of `video_repair.py` (remux), `1.py`
(full re-encode) and `3.py` (forced-format re-encode) each include the `-y`
overwrite-without-prompt flag; the stream-copy list of `4.py` does not. -/
theorem c5_overwrite_flag_amended (p : String) :
    "-y" ∈ command_repair_video p ∧
    "-y" ∈ command_repair_video_reencode p ∧
    "-y" ∈ command_repair_video_forced p := by
  refine ⟨?_, ?_, ?_⟩ <;>
    · simp only [command_repair_video, command_repair_video_reencode,
        command_repair_video_forced]
      repeat
        first
          | exact List.mem_cons_self _ _
          | apply List.mem_cons_of_mem

/-- C6, counterexample: for input `/videos/clip.mp4` neither remux script
derives `/videos/clip_repaired.mp4`: `video_repair.py` inserts
`_noncorrupt` and `4.py` inserts `.fixed`. -/
theorem c6_repaired_name_counterexample :
    outputPathNoncorrupt "/videos/clip.mp4" ≠ "/videos/clip_repaired.mp4" ∧
    outputPathFixed "/videos/clip.mp4" ≠ "/videos/clip_repaired.mp4" := by
  decide

/-- C6, amended: for input `/videos/clip.mp4` the remux output is
`/videos/clip_noncorrupt.mp4` (`video_repair.py`) respectively
`/videos/clip.fixed.mp4` (`4.py`), and each remux argument list contains
exactly one `copy` stream-copy directive and no bitrate flags. -/
theorem c6_remux_example_amended :
    outputPathNoncorrupt "/videos/clip.mp4" = "/videos/clip_noncorrupt.mp4" ∧
    outputPathFixed "/videos/clip.mp4" = "/videos/clip.fixed.mp4" ∧
    ((command_repair_video "/videos/clip.mp4").filter
      (fun s => s = "copy")).length = 1 ∧
    "-b:a" ∉ command_repair_video "/videos/clip.mp4" ∧
    "-b:v" ∉ command_repair_video "/videos/clip.mp4" ∧
    ((command_repair_video_ffmpeg "/videos/clip.mp4").filter
      (fun s => s = "copy")).length = 1 ∧
    "-b:a" ∉ command_repair_video_ffmpeg "/videos/clip.mp4" ∧
    "-b:v" ∉ command_repair_video_ffmpeg "/videos/clip.mp4" := by
  decide

/-- C7, confirmed: under the forced-format strategy of `3.py` the derived
output path's extension component is `.mp4` for every input path,
regardless of the input's extension. -/
theorem c7_forced_extension_mp4 (p : List Char) :
    pathExtL (output_path_forced p) = ".mp4".data :=
  pathext_forced_eq p

/-- C8, counterexample: for the input `a"b` (no surrounding whitespace or
quotes) the scripts' cleanup removes the interior double quote, yielding
`ab`, so the path used does not equal the input with only surrounding
whitespace and surrounding quote characters removed. -/
theorem c8_interior_quote_counterexample :
    sanitize ['a', '"', 'b'] = ['a', 'b'] ∧
    sanitize ['a', '"', 'b'] ≠ stripSurroundingQuotes ['a', '"', 'b'] := by
  decide

/-- C8, amended: the path used is the input with surrounding whitespace
stripped and then EVERY quote character (double or single) removed wherever
it occurs: it is a subsequence of the input, contains no quote characters,
and coincides with the surrounding-only strip exactly when no quote
characters remain in the interior. -/
theorem c8_quote_removal_amended (s : List Char) :
    List.Sublist (sanitize s) s ∧
    (∀ c ∈ sanitize s, isQuote c = false) ∧
    ((∀ c ∈ stripSurroundingQuotes s, isQuote c = false) →
      sanitize s = stripSurroundingQuotes s) :=
  ⟨sanitize_sublist s, fun _ hc => sanitize_no_quote hc,
    sanitize_eq_strip_of_no_inner s⟩

/-- C8, witness: the amended theorem applied to the concrete input
`  "/videos/clip.mp4"  `, discharging both hypotheses there. -/
theorem c8_quote_removal_amended_witness :
    isQuote 'c' = false ∧
    sanitize "  \"/videos/clip.mp4\"  ".data =
      stripSurroundingQuotes "  \"/videos/clip.mp4\"  ".data :=
  ⟨(c8_quote_removal_amended "  \"/videos/clip.mp4\"  ".data).2.1 'c'
      (by decide),
    (c8_quote_removal_amended "  \"/videos/clip.mp4\"  ".data).2.2
      (by decide)⟩

/-- C10, confirmed: every derived output path has the same directory
component as the input path — the output file is always placed in the
directory containing the input file. -/
theorem c10_output_same_directory (p : List Char) :
    dirnameL (output_path_noncorrupt p) = dirnameL p ∧
    dirnameL (output_path_fixed p) = dirnameL p ∧
    dirnameL (output_path_forced p) = dirnameL p := by
  have hs1 : ∀ c ∈ "_noncorrupt".data, isSlash c = false := by decide
  have hs2 : ∀ c ∈ ".fixed".data, isSlash c = false := by decide
  have hn1 : ("_noncorrupt".data : List Char) ≠ [] := by decide
  have hn2 : (".fixed".data : List Char) ≠ [] := by decide
  refine ⟨?_, ?_, ?_⟩
  · unfold output_path_noncorrupt
    exact dirname_join p _ (insert_name_no_slash hs1) (insert_name_ne_nil hn1)
  · unfold output_path_fixed
    exact dirname_join p _ (insert_name_no_slash hs2) (insert_name_ne_nil hn2)
  · unfold output_path_forced
    exact dirname_join p _ (forced_name_no_slash p) (forced_name_ne_nil p)

end VideoRepair
